import Mathlib

/-!
# encrypt: container format of the password-based file encrypter

A shallow embedding of `encrypt.go`: the framing that `main` performs around
the file bytes (extension length, extension, content), the `encrypt` and
`decrypt` functions, and the extraction `main` performs after `decrypt`.

The cryptographic libraries (`scrypt.Key`, `aes.NewCipher`, `cipher.NewGCM`,
the AEAD returned by it) and the random source are parameters of the model;
two instances are given, a small one and one with AES-GCM itself.
Go slices are lists of bytes; slice and index expressions are checked and
yield `Error.panic` when Go would panic.
-/

namespace Encrypt

/-! ## Bytes, errors, slices -/

abbrev Byte := Fin 256
abbrev Bytes := List Byte

/-- Go conversion `byte(n)` of a non-negative integer: truncation to 8 bits. -/
def byte (n : Nat) : Byte := ⟨n % 256, Nat.mod_lt n (by decide)⟩

/-- The ways an operation of the program can end without a result. -/
inductive Error where
  /-- Raised by `throwError("File extensiong musn't be longer than 256")`. -/
  | extensionTooLong
  /-- Value `fmt.Errorf("File is wrong or broken")`. -/
  | fileWrongOrBroken
  /-- Value `fmt.Errorf("Ciphertext is too short")`. -/
  | ciphertextTooShort
  /-- Value `io.EOF` from `io.ReadFull`. -/
  | eof
  /-- Value `io.ErrUnexpectedEOF` from `io.ReadFull`. -/
  | unexpectedEOF
  /-- An error of `scrypt.Key`. -/
  | scryptParams
  /-- Value `aes.KeySizeError`. -/
  | keySize
  /-- An error of `cipher.NewGCM`. -/
  | gcmBlockSize
  /-- The error of `gcm.Open`, cipher: message authentication failed. -/
  | authFailed
  /-- A run-time panic: index or slice bounds out of range. -/
  | panic
  deriving DecidableEq, Repr

/-- Go `len(s)`, an `int`. -/
def len (s : Bytes) : Int := (s.length : Int)

/-- Go slice expression `s[lo:hi]`; panics unless `0 <= lo <= hi <= len(s)`.
Go tests `hi` against the capacity, which is at least the length; the model
tests against the length. Every slice expression of the program with `hi`
above the length is followed by one that Go rejects too (see `extract`), or is
not reached (see `decrypt`). -/
def slice (s : Bytes) (lo hi : Int) : Except Error Bytes :=
  if 0 ≤ lo ∧ lo ≤ hi ∧ hi ≤ len s then .ok ((s.take hi.toNat).drop lo.toNat)
  else .error .panic

/-- Go index expression `s[i]`; panics unless `0 <= i < len(s)`. -/
def index (s : Bytes) (i : Int) : Except Error Byte :=
  if i < 0 then .error .panic
  else match s[i.toNat]? with
    | some b => .ok b
    | none => .error .panic

/-! ## The conversion `[]byte(string(n))` of an `int` -/

/-- Go `[]byte(string(n))` for an `int` `n`: the UTF-8 encoding of the code
point `n`; a value that is not a valid code point (negative, a surrogate, above
`0x10FFFF`) is encoded as `U+FFFD`. -/
def encodeRune (r : Int) : Bytes :=
  if r < 0 ∨ 0x10FFFF < r ∨ (0xD800 ≤ r ∧ r ≤ 0xDFFF) then [0xEF, 0xBF, 0xBD]
  else
    let n := r.toNat
    if n ≤ 0x7F then [byte n]
    else if n ≤ 0x7FF then [byte (0xC0 ||| (n >>> 6)), byte (0x80 ||| (n &&& 0x3F))]
    else if n ≤ 0xFFFF then
      [byte (0xE0 ||| (n >>> 12)), byte (0x80 ||| ((n >>> 6) &&& 0x3F)),
        byte (0x80 ||| (n &&& 0x3F))]
    else
      [byte (0xF0 ||| (n >>> 18)), byte (0x80 ||| ((n >>> 12) &&& 0x3F)),
        byte (0x80 ||| ((n >>> 6) &&& 0x3F)), byte (0x80 ||| (n &&& 0x3F))]

/-! ## The libraries the program calls -/

/-- The value `cipher.NewGCM` returns: the nonce size `gcm.NonceSize()` and the
sealing and opening functions on (nonce, text, additional data). -/
structure AEAD where
  nonceSize : Nat
  sealRaw : Bytes → Bytes → Bytes → Bytes
  openRaw : Bytes → Bytes → Bytes → Except Error Bytes

/-- Go `gcm.Seal(dst, nonce, plaintext, additionalData)`: appends the sealed
text to `dst`. -/
def AEAD.Seal (g : AEAD) (dst nonce plaintext additionalData : Bytes) : Bytes :=
  dst ++ g.sealRaw nonce plaintext additionalData

/-- Go `gcm.Open(dst, nonce, ciphertext, additionalData)`: appends the opened
text to `dst`, or fails. -/
def AEAD.Open (g : AEAD) (dst nonce ciphertext additionalData : Bytes) : Except Error Bytes :=
  match g.openRaw nonce ciphertext additionalData with
  | .ok plaintext => .ok (dst ++ plaintext)
  | .error e => .error e

/-- The library functions used by the program. -/
structure Crypto where
  Block : Type
  /-- Go `scrypt.Key(password, salt, N, r, p, keyLen)`. -/
  scryptKey : Bytes → Bytes → Nat → Nat → Nat → Nat → Except Error Bytes
  /-- Go `aes.NewCipher(key)`. -/
  newCipher : Bytes → Except Error Block
  /-- Go `cipher.NewGCM(c)`. -/
  newGCM : Block → Except Error AEAD

/-- Go `io.ReadFull(rand.Reader, buf)` with `len(buf) = n`: the random source is
a stream of bytes `r`; returns the bytes read and the rest of the stream. -/
def readFull (r : Bytes) (n : Nat) : Except Error (Bytes × Bytes) :=
  if n ≤ r.length then .ok (r.take n, r.drop n)
  else if r.length = 0 then .error .eof
  else .error .unexpectedEOF

/-! ## The program -/

def saltLength : Nat := 32
def keyLength : Nat := 32

/-- Source `makeKey`. -/
def makeKey (C : Crypto) (password salt : Bytes) : Except Error Bytes :=
  C.scryptKey password salt 16384 8 1 keyLength

/-- Source `encrypt`; `rnd` is the stream `rand.Reader` delivers. -/
def encrypt (C : Crypto) (rnd : Bytes) (plaintext password : Bytes) : Except Error Bytes := do
  let (salt, rnd) ← readFull rnd saltLength
  let key ← makeKey C password salt
  let c ← C.newCipher key
  let gcm ← C.newGCM c
  let (nonce, _) ← readFull rnd gcm.nonceSize
  let ciphertext := gcm.Seal nonce nonce plaintext []
  let ciphertext := ciphertext ++ salt
  return ciphertext

/-- Source `decrypt`. -/
def decrypt (C : Crypto) (ciphertext password : Bytes) : Except Error Bytes := do
  if (saltLength : Int) > len ciphertext then
    throw Error.fileWrongOrBroken
  let salt ← slice ciphertext (len ciphertext - saltLength) (len ciphertext)
  let key ← makeKey C password salt
  let c ← C.newCipher key
  let gcm ← C.newGCM c
  let nonceSize : Int := gcm.nonceSize
  let body ← slice ciphertext 0 (len ciphertext - saltLength)
  if len body < nonceSize then
    throw Error.ciphertextTooShort
  let nonce ← slice ciphertext 0 nonceSize
  let ciphertext ← slice ciphertext nonceSize (len ciphertext - saltLength)
  gcm.Open [] nonce ciphertext []

/-- Source `main`, encrypt branch, up to the call of `encrypt`: the length
bytes `extLen`, the check on them, and the framed file. `ext` is
`[]byte(filepath.Ext(filePath))`. -/
def frame (ext inputFile : Bytes) : Except Error Bytes := do
  let extLen := encodeRune (len ext - 1)
  if len extLen > 256 then
    throw Error.extensionTooLong
  let file := extLen ++ ext
  let file := file ++ inputFile
  return file

/-- Source `main`, encrypt branch: the output file for extension `ext`, file
content `inputFile` and password `password`. -/
def mainEncrypt (C : Crypto) (rnd : Bytes) (ext inputFile password : Bytes) :
    Except Error Bytes := do
  let file ← frame ext inputFile
  encrypt C rnd file password

/-- Source `main`, decrypt branch after `decrypt`: the extension and the output
file taken from the decrypted bytes `file`. When `extLen+2` exceeds `len(file)`
the program panics, at `file[1 : extLen+2]` or at the latest at
`file[extLen+2:]`, whose upper bound is `len(file)`. -/
def extract (file : Bytes) : Except Error (Bytes × Bytes) := do
  let b ← index file 0
  let extLen : Int := (b.val : Int)
  let ext ← slice file 1 (extLen + 2)
  let outputFile ← slice file (extLen + 2) (len file)
  return (ext, outputFile)

/-- Source `main`, decrypt branch: the extension and the output file for the
input file `inputFile` and password `password`. -/
def mainDecrypt (C : Crypto) (inputFile password : Bytes) : Except Error (Bytes × Bytes) := do
  let file ← decrypt C inputFile password
  extract file

/-! ## What the theorems assume of the libraries -/

deriving instance DecidableEq for Except

/-- Library facts for the parameters the program fixes: `scrypt.Key` with
`N = 16384, r = 8, p = 1` returns a key of `keyLength` bytes, `aes.NewCipher`
accepts a key of that length, and `cipher.NewGCM` returns an AEAD whose nonce
size is `N`. -/
structure Setup (C : Crypto) (N : Nat) : Prop where
  scrypt_ok : ∀ password salt : Bytes,
    ∃ key, C.scryptKey password salt 16384 8 1 keyLength = .ok key ∧ key.length = keyLength
  newCipher_ok : ∀ key : Bytes, key.length = keyLength → ∃ c, C.newCipher key = .ok c
  newGCM_ok : ∀ c : C.Block, ∃ gcm, C.newGCM c = .ok gcm ∧ gcm.nonceSize = N

/-- The AEAD opens what it sealed under the same key and nonce (no additional
data). -/
def OpensOwnSeal (C : Crypto) : Prop :=
  ∀ (c : C.Block) (gcm : AEAD) (nonce plaintext : Bytes), C.newGCM c = .ok gcm →
    nonce.length = gcm.nonceSize →
    gcm.openRaw nonce (gcm.sealRaw nonce plaintext []) [] = .ok plaintext

/-- Sealing returns the length of the plaintext plus a tag of `T` bytes. -/
def TagSize (C : Crypto) (T : Nat) : Prop :=
  ∀ (c : C.Block) (gcm : AEAD) (nonce plaintext additionalData : Bytes),
    C.newGCM c = .ok gcm →
    (gcm.sealRaw nonce plaintext additionalData).length = plaintext.length + T

/-! ## A small instance of the libraries and concrete inputs

The instance does not hide the plaintext; it has the shape of AES-GCM (nonce of
12 bytes, tag of 16 bytes that depends on the key) and is used to evaluate the
program on concrete inputs. -/

/-- The 16-byte tag of the small instance: the first 16 bytes of the key. -/
def demoTag (key : Bytes) : Bytes := (key ++ List.replicate 16 0).take 16

/-- The AEAD of the small instance for the key `key`. -/
def demoGCM (key : Bytes) : AEAD where
  nonceSize := 12
  sealRaw := fun _ plaintext _ => plaintext ++ demoTag key
  openRaw := fun _ ciphertext _ =>
    if ciphertext.length < 16 then .error .authFailed
    else if ciphertext.drop (ciphertext.length - 16) = demoTag key then
      .ok (ciphertext.take (ciphertext.length - 16))
    else .error .authFailed

/-- The small instance of the libraries. -/
def demoCrypto : Crypto where
  Block := Bytes
  scryptKey := fun password salt _ _ _ keyLen =>
    .ok ((password ++ salt ++ List.replicate keyLen 0).take keyLen)
  newCipher := fun key =>
    if key.length = 16 ∨ key.length = 24 ∨ key.length = 32 then .ok key else .error .keySize
  newGCM := fun c => .ok (demoGCM c)

/-- A salt of 32 bytes: 0, 1, ..., 31. -/
def demoSalt : Bytes := (List.range 32).map byte

/-- A nonce of 12 bytes: 100, 101, ..., 111. -/
def demoNonce : Bytes := (List.range 12).map (fun i => byte (100 + i))

/-- The password "hunter2". -/
def hunter2 : Bytes := [0x68, 0x75, 0x6E, 0x74, 0x65, 0x72, 0x32]

/-- The password "wrong". -/
def wrong : Bytes := [0x77, 0x72, 0x6F, 0x6E, 0x67]

/-- The extension ".txt". -/
def dotTxt : Bytes := [0x2E, 0x74, 0x78, 0x74]

/-- The file content `[0x41, 0x42, 0x43]`. -/
def abc : Bytes := [0x41, 0x42, 0x43]

/-- An extension of `k + 1` bytes: a dot followed by `k` letters `a`. -/
def dotA (k : Nat) : Bytes := 0x2E :: List.replicate k 0x61

/-- The UTF-8 bytes of `k` letters e-acute (`C3 A9` each), as in a file name. -/
def accents : Nat → Bytes
  | 0 => []
  | k + 1 => 0xC3 :: 0xA9 :: accents k

/-- An extension of `1 + j + 2 * k` bytes: a dot, `j` letters `a`, `k` letters
e-acute. -/
def dotExt (j k : Nat) : Bytes := 0x2E :: (List.replicate j 0x61 ++ accents k)

/-! ## AES-GCM

The block cipher of FIPS 197 and the mode of NIST SP 800-38D with a nonce of 12
bytes and a tag of 16 bytes, as `aes.NewCipher` and `cipher.NewGCM` provide
them, on bytes as natural numbers. -/

/-- The AES S-box (FIPS 197, figure 7): row `x`, column `y` holds the
substitution value of the byte `xy`. -/
def sbox : List (List Nat) :=
  [
    [0x63, 0x7C, 0x77, 0x7B, 0xF2, 0x6B, 0x6F, 0xC5, 0x30, 0x01, 0x67, 0x2B, 0xFE, 0xD7, 0xAB, 0x76],
    [0xCA, 0x82, 0xC9, 0x7D, 0xFA, 0x59, 0x47, 0xF0, 0xAD, 0xD4, 0xA2, 0xAF, 0x9C, 0xA4, 0x72, 0xC0],
    [0xB7, 0xFD, 0x93, 0x26, 0x36, 0x3F, 0xF7, 0xCC, 0x34, 0xA5, 0xE5, 0xF1, 0x71, 0xD8, 0x31, 0x15],
    [0x04, 0xC7, 0x23, 0xC3, 0x18, 0x96, 0x05, 0x9A, 0x07, 0x12, 0x80, 0xE2, 0xEB, 0x27, 0xB2, 0x75],
    [0x09, 0x83, 0x2C, 0x1A, 0x1B, 0x6E, 0x5A, 0xA0, 0x52, 0x3B, 0xD6, 0xB3, 0x29, 0xE3, 0x2F, 0x84],
    [0x53, 0xD1, 0x00, 0xED, 0x20, 0xFC, 0xB1, 0x5B, 0x6A, 0xCB, 0xBE, 0x39, 0x4A, 0x4C, 0x58, 0xCF],
    [0xD0, 0xEF, 0xAA, 0xFB, 0x43, 0x4D, 0x33, 0x85, 0x45, 0xF9, 0x02, 0x7F, 0x50, 0x3C, 0x9F, 0xA8],
    [0x51, 0xA3, 0x40, 0x8F, 0x92, 0x9D, 0x38, 0xF5, 0xBC, 0xB6, 0xDA, 0x21, 0x10, 0xFF, 0xF3, 0xD2],
    [0xCD, 0x0C, 0x13, 0xEC, 0x5F, 0x97, 0x44, 0x17, 0xC4, 0xA7, 0x7E, 0x3D, 0x64, 0x5D, 0x19, 0x73],
    [0x60, 0x81, 0x4F, 0xDC, 0x22, 0x2A, 0x90, 0x88, 0x46, 0xEE, 0xB8, 0x14, 0xDE, 0x5E, 0x0B, 0xDB],
    [0xE0, 0x32, 0x3A, 0x0A, 0x49, 0x06, 0x24, 0x5C, 0xC2, 0xD3, 0xAC, 0x62, 0x91, 0x95, 0xE4, 0x79],
    [0xE7, 0xC8, 0x37, 0x6D, 0x8D, 0xD5, 0x4E, 0xA9, 0x6C, 0x56, 0xF4, 0xEA, 0x65, 0x7A, 0xAE, 0x08],
    [0xBA, 0x78, 0x25, 0x2E, 0x1C, 0xA6, 0xB4, 0xC6, 0xE8, 0xDD, 0x74, 0x1F, 0x4B, 0xBD, 0x8B, 0x8A],
    [0x70, 0x3E, 0xB5, 0x66, 0x48, 0x03, 0xF6, 0x0E, 0x61, 0x35, 0x57, 0xB9, 0x86, 0xC1, 0x1D, 0x9E],
    [0xE1, 0xF8, 0x98, 0x11, 0x69, 0xD9, 0x8E, 0x94, 0x9B, 0x1E, 0x87, 0xE9, 0xCE, 0x55, 0x28, 0xDF],
    [0x8C, 0xA1, 0x89, 0x0D, 0xBF, 0xE6, 0x42, 0x68, 0x41, 0x99, 0x2D, 0x0F, 0xB0, 0x54, 0xBB, 0x16]
  ]

/-- The S-box applied to one byte. -/
def subByte (x : Nat) : Nat := (sbox.getD (x / 16) []).getD (x % 16) 0

/-- Multiplication by `x` in GF(2^8) modulo `x^8 + x^4 + x^3 + x + 1`. -/
def xtime (a : Nat) : Nat := ((a <<< 1) ^^^ (if a &&& 0x80 = 0 then 0 else 0x1B)) &&& 0xFF

/-- Bytewise exclusive or, up to the shorter length. -/
def xorBytes (a b : List Nat) : List Nat := List.zipWith (fun x y => x ^^^ y) a b

/-- FIPS 197 `SubWord`. -/
def subWord (w : List Nat) : List Nat := w.map subByte

/-- FIPS 197 `RotWord`. -/
def rotWord : List Nat → List Nat
  | [] => []
  | a :: rest => rest ++ [a]

/-- FIPS 197 key expansion from word `i` on; `w` holds the words before `i` and
`rc` is the round constant. -/
def keyExpansionAux (nk : Nat) : Nat → Nat → Nat → List (List Nat) → List (List Nat)
  | 0, _, _, w => w
  | fuel + 1, i, rc, w =>
    let prev := w.getD (i - 1) []
    let t :=
      if i % nk = 0 then
        match subWord (rotWord prev) with
        | [] => []
        | a :: rest => (a ^^^ rc) :: rest
      else if 6 < nk ∧ i % nk = 4 then subWord prev
      else prev
    let rc1 := if i % nk = 0 then xtime rc else rc
    keyExpansionAux nk fuel (i + 1) rc1 (w ++ [xorBytes (w.getD (i - nk) []) t])

/-- The key schedule: `4 * (Nr + 1)` words of 4 bytes, with `Nr = Nk + 6`. -/
def keyExpansion (key : List Nat) : List (List Nat) :=
  let nk := key.length / 4
  keyExpansionAux nk (4 * (nk + 7) - nk) nk 1
    ((List.range nk).map (fun i => (key.drop (4 * i)).take 4))

/-- The 16 bytes of round key `r`. -/
def roundKey (w : List (List Nat)) (r : Nat) : List Nat := ((w.drop (4 * r)).take 4).flatten

/-- FIPS 197 `ShiftRows` on the state, stored column by column. -/
def shiftRows (s : List Nat) : List Nat :=
  (List.range 16).map (fun i => s.getD (i % 4 + 4 * ((i / 4 + i % 4) % 4)) 0)

/-- FIPS 197 `MixColumns` on one column. -/
def mixColumn : List Nat → List Nat
  | [a0, a1, a2, a3] =>
    [xtime a0 ^^^ (xtime a1 ^^^ a1) ^^^ a2 ^^^ a3,
     a0 ^^^ xtime a1 ^^^ (xtime a2 ^^^ a2) ^^^ a3,
     a0 ^^^ a1 ^^^ xtime a2 ^^^ (xtime a3 ^^^ a3),
     (xtime a0 ^^^ a0) ^^^ a1 ^^^ a2 ^^^ xtime a3]
  | _ => []

/-- FIPS 197 `MixColumns`. -/
def mixColumns (s : List Nat) : List Nat :=
  ((List.range 4).map (fun c => mixColumn ((s.drop (4 * c)).take 4))).flatten

/-- Rounds `r, r+1, ..., nr` of the cipher; the last one has no `MixColumns`. -/
def aesRounds (w : List (List Nat)) (nr : Nat) : Nat → Nat → List Nat → List Nat
  | 0, _, s => s
  | fuel + 1, r, s =>
    let s1 := shiftRows (s.map subByte)
    let s2 := if r < nr then mixColumns s1 else s1
    aesRounds w nr fuel (r + 1) (xorBytes s2 (roundKey w r))

/-- The AES cipher on one block of 16 bytes (FIPS 197, section 5.1). -/
def aesEncryptBlock (key blk : List Nat) : List Nat :=
  let w := keyExpansion key
  let nr := key.length / 4 + 6
  aesRounds w nr nr 1 (xorBytes blk (roundKey w 0))

/-- Big-endian value of a byte string. -/
def beNat (b : List Nat) : Nat := b.foldl (fun acc x => acc * 256 + x) 0

/-- The `n` bytes of the big-endian representation of `x`. -/
def natBytes (n x : Nat) : List Nat :=
  (List.range n).map (fun i => (x >>> (8 * (n - 1 - i))) &&& 0xFF)

/-- Multiplication in GF(2^128) (SP 800-38D, algorithm 1) with `i` bits of `x`
left; bit 127 of a block is its first bit. -/
def gfMulAux (x : Nat) : Nat → Nat → Nat → Nat
  | 0, z, _ => z
  | i + 1, z, v =>
    let z1 := if (x >>> i) &&& 1 = 1 then z ^^^ v else z
    let v1 := if v &&& 1 = 1 then (v >>> 1) ^^^ (0xE1 <<< 120) else v >>> 1
    gfMulAux x i z1 v1

/-- Multiplication of two blocks in GF(2^128). -/
def gfMul (x y : Nat) : Nat := gfMulAux x 128 0 y

/-- The 16-byte blocks of a byte string, the last one padded with zeros. -/
def blocks16 : Nat → List Nat → List Nat
  | 0, _ => []
  | fuel + 1, b =>
    if b.length = 0 then []
    else
      beNat ((b.take 16) ++ List.replicate (16 - (b.take 16).length) 0)
        :: blocks16 fuel (b.drop 16)

/-- GHASH of additional data `a` and ciphertext `c` under the hash key `h`
(SP 800-38D, section 7.1). -/
def ghash (h : Nat) (a c : List Nat) : Nat :=
  (blocks16 a.length a ++ blocks16 c.length c
      ++ [((a.length * 8) <<< 64) ||| (c.length * 8)]).foldl
    (fun y x => gfMul (y ^^^ x) h) 0

/-- Counter mode with the 32-bit counter starting at `ctr` after the 12-byte
nonce (SP 800-38D, GCTR). -/
def gctr (key nonce : List Nat) : Nat → Nat → List Nat → List Nat
  | 0, _, _ => []
  | fuel + 1, ctr, data =>
    if data.length = 0 then []
    else
      xorBytes (data.take 16) (aesEncryptBlock key (nonce ++ natBytes 4 ctr))
        ++ gctr key nonce fuel (ctr + 1) (data.drop 16)

/-- The 16-byte tag of the ciphertext `c` with additional data `a`. -/
def gcmTag (key nonce a c : List Nat) : List Nat :=
  natBytes 16 (ghash (beNat (aesEncryptBlock key (List.replicate 16 0))) a c
    ^^^ beNat (aesEncryptBlock key (nonce ++ [0, 0, 0, 1])))

/-- GCM authenticated encryption: the ciphertext followed by the tag. -/
def gcmSeal (key nonce pt a : List Nat) : List Nat :=
  let c := gctr key nonce pt.length 2 pt
  c ++ gcmTag key nonce a c

/-- GCM authenticated decryption: the plaintext when the tag verifies. -/
def gcmOpen (key nonce ct a : List Nat) : Option (List Nat) :=
  if ct.length < 16 then none
  else
    let c := ct.take (ct.length - 16)
    if gcmTag key nonce a c = ct.drop (ct.length - 16) then
      some (gctr key nonce c.length 2 c)
    else none

/-- The bytes as natural numbers. -/
def toNats (b : Bytes) : List Nat := b.map (fun x => x.val)

/-- The AEAD `cipher.NewGCM` returns for the AES key `key`. Go panics in `Seal`
and `Open` on a nonce that is not of 12 bytes, which the program never passes. -/
def aesGCM (key : Bytes) : AEAD where
  nonceSize := 12
  sealRaw := fun nonce plaintext additionalData =>
    (gcmSeal (toNats key) (toNats nonce) (toNats plaintext) (toNats additionalData)).map byte
  openRaw := fun nonce ciphertext additionalData =>
    if nonce.length = 12 then
      match gcmOpen (toNats key) (toNats nonce) (toNats ciphertext) (toNats additionalData) with
      | some plaintext => .ok (plaintext.map byte)
      | none => .error .authFailed
    else .error .panic

/-- The key `scrypt.Key("hunter2", demoSalt, 16384, 8, 1, 32)` (RFC 7914). -/
def hunter2Key : Bytes :=
  [0x18, 0x29, 0x69, 0x7D, 0x67, 0xF2, 0xED, 0x0D, 0x19, 0xB6, 0xCD, 0x4F, 0x88, 0xEE, 0xB4, 0x3C,
   0x87, 0x3A, 0x66, 0x09, 0xB0, 0xAC, 0x92, 0x2C, 0xA3, 0x0C, 0x90, 0x0A, 0x93, 0x10, 0x03, 0x44]

/-- The key `scrypt.Key("wrong", demoSalt, 16384, 8, 1, 32)` (RFC 7914). -/
def wrongKey : Bytes :=
  [0xD9, 0x10, 0x62, 0x7A, 0x46, 0x6B, 0x85, 0x7F, 0xB0, 0xAB, 0x6A, 0xC2, 0x5B, 0xC2, 0x07, 0xA4,
   0x79, 0xB1, 0x06, 0x0A, 0xC9, 0x98, 0x20, 0xC1, 0x47, 0x9E, 0x2F, 0x90, 0x07, 0x02, 0x13, 0x7A]

/-- The libraries with AES-GCM as above and `scrypt.Key` by its recorded values
for the passwords "hunter2" and "wrong" with the salt `demoSalt`; no other value
of `scrypt.Key` is recorded. -/
def aesCrypto : Crypto where
  Block := Bytes
  scryptKey := fun password salt n r p keyLen =>
    if n = 16384 ∧ r = 8 ∧ p = 1 ∧ keyLen = 32 ∧ salt = demoSalt then
      if password = hunter2 then .ok hunter2Key
      else if password = wrong then .ok wrongKey
      else .error .scryptParams
    else .error .scryptParams
  newCipher := fun key =>
    if key.length = 16 ∨ key.length = 24 ∨ key.length = 32 then .ok key else .error .keySize
  newGCM := fun c => .ok (aesGCM c)

/-- A nonce of 12 bytes: 100, ..., 110, 8. -/
def craftedNonce : Bytes :=
  [0x64, 0x65, 0x66, 0x67, 0x68, 0x69, 0x6A, 0x6B, 0x6C, 0x6D, 0x6E, 0x08]

/-- A file content of 27 bytes: "hello world" followed by 16 bytes chosen so that
the sealed file has the same tag under `hunter2Key` and under `wrongKey`. -/
def craftedContent : Bytes :=
  [0x68, 0x65, 0x6C, 0x6C, 0x6F, 0x20, 0x77, 0x6F, 0x72, 0x6C, 0x64, 0xFE, 0x5A, 0xE4, 0x75, 0x03,
   0x7A, 0x61, 0x7C, 0xBB, 0xDF, 0x34, 0xF1, 0x38, 0x14, 0xAF, 0x52]

/-- The container of 92 bytes for `craftedContent` with extension ".txt", password
"hunter2", salt `demoSalt` and nonce `craftedNonce`. -/
def craftedContainer : Bytes :=
  [0x64, 0x65, 0x66, 0x67, 0x68, 0x69, 0x6A, 0x6B, 0x6C, 0x6D, 0x6E, 0x08, 0x4A, 0xF9, 0xE5, 0xB4,
   0x73, 0xB8, 0x60, 0x1F, 0x81, 0x89, 0x52, 0x7A, 0xEC, 0x42, 0xAB, 0xB3, 0x75, 0xF7, 0x1C, 0xF9,
   0xC4, 0x07, 0x8E, 0xD9, 0x61, 0xA8, 0xE9, 0x65, 0x02, 0x7F, 0x0B, 0x21, 0x78, 0xAB, 0x76, 0x31,
   0x40, 0xEB, 0xA8, 0x9A, 0xE0, 0xB3, 0x41, 0x48, 0xE6, 0xF7, 0x59, 0x5E, 0x00, 0x01, 0x02, 0x03,
   0x04, 0x05, 0x06, 0x07, 0x08, 0x09, 0x0A, 0x0B, 0x0C, 0x0D, 0x0E, 0x0F, 0x10, 0x11, 0x12, 0x13,
   0x14, 0x15, 0x16, 0x17, 0x18, 0x19, 0x1A, 0x1B, 0x1C, 0x1D, 0x1E, 0x1F]

/-- What AES-GCM opens from `craftedContainer` under `wrongKey`. -/
def craftedOpened : Bytes :=
  [0x1A, 0x09, 0x23, 0x99, 0xD2, 0x04, 0xC6, 0x07, 0xEB, 0x30, 0xAF, 0xF2, 0x38, 0xC8, 0x8A, 0x83,
   0x6A, 0xCD, 0xE1, 0x69, 0xDF, 0x5E, 0x47, 0xB8, 0xCB, 0x6D, 0x45, 0xF6, 0x33, 0xE3, 0x73, 0x22]

/-! ## Slices and lists -/

theorem slice_of_le (s : Bytes) (lo hi : Nat) (h1 : lo ≤ hi) (h2 : hi ≤ s.length) :
    slice s (lo : Int) (hi : Int) = .ok ((s.take hi).drop lo) := by
  have h : (0 : Int) ≤ (lo : Int) ∧ (lo : Int) ≤ (hi : Int) ∧ (hi : Int) ≤ len s := by
    simp only [len]; omega
  simp [slice, h]

theorem slice_panic (s : Bytes) (lo hi : Int) (h : len s < hi) :
    slice s lo hi = .error .panic := by
  have h2 : ¬ (0 ≤ lo ∧ lo ≤ hi ∧ hi ≤ len s) := by omega
  simp [slice, h2]

theorem slice_length (s t : Bytes) (lo hi : Int) (h : slice s lo hi = .ok t) :
    0 ≤ lo ∧ lo ≤ hi ∧ hi ≤ len s ∧ (t.length : Int) = hi - lo := by
  unfold slice at h
  split at h
  · rename_i hb
    simp only [Except.ok.injEq] at h
    subst h
    refine ⟨hb.1, hb.2.1, hb.2.2, ?_⟩
    have := hb.2.2
    simp only [len] at this
    simp only [List.length_drop, List.length_take]
    omega
  · simp at h

theorem layout_parts (n x s : Bytes) :
    (n ++ x ++ s).take n.length = n ∧
    (n ++ x ++ s).drop ((n ++ x ++ s).length - s.length) = s ∧
    ((n ++ x ++ s).take ((n ++ x ++ s).length - s.length)).drop n.length = x := by
  have e : (n ++ x ++ s).length - s.length = (n ++ x).length := by
    simp only [List.length_append]; omega
  refine ⟨?_, ?_, ?_⟩
  · simp [List.append_assoc]
  · rw [e]; simp
  · rw [e, List.take_left' rfl, List.drop_left' rfl]

/-! ## encrypt and decrypt, step by step -/

theorem readFull_append (a b : Bytes) (n : Nat) (h : a.length = n) :
    readFull (a ++ b) n = .ok (a, b) := by
  subst h
  simp [readFull]

theorem encrypt_of_steps (C : Crypto) (salt nonce rest plaintext password key : Bytes)
    (c : C.Block) (gcm : AEAD)
    (hs : salt.length = saltLength) (hk : makeKey C password salt = .ok key)
    (hc : C.newCipher key = .ok c) (hg : C.newGCM c = .ok gcm)
    (hn : nonce.length = gcm.nonceSize) :
    encrypt C (salt ++ nonce ++ rest) plaintext password
      = .ok (nonce ++ gcm.sealRaw nonce plaintext [] ++ salt) := by
  have h1 : readFull (salt ++ (nonce ++ rest)) saltLength = .ok (salt, nonce ++ rest) :=
    readFull_append _ _ _ hs
  have h2 : readFull (nonce ++ rest) gcm.nonceSize = .ok (nonce, rest) :=
    readFull_append _ _ _ hn
  simp [encrypt, h1, hk, hc, hg, h2, AEAD.Seal, bind, Except.bind, pure, Except.pure]

theorem decrypt_of_steps (C : Crypto) (ct password key : Bytes) (c : C.Block) (gcm : AEAD)
    (hlen : saltLength + gcm.nonceSize ≤ ct.length)
    (hk : makeKey C password (ct.drop (ct.length - saltLength)) = .ok key)
    (hc : C.newCipher key = .ok c) (hg : C.newGCM c = .ok gcm) :
    decrypt C ct password
      = gcm.openRaw (ct.take gcm.nonceSize)
          ((ct.take (ct.length - saltLength)).drop gcm.nonceSize) [] := by
  have e1 : len ct - (saltLength : Int) = ((ct.length - saltLength : Nat) : Int) := by
    simp only [len]; omega
  have e2 : len ct = ((ct.length : Nat) : Int) := rfl
  have e0 : (0 : Int) = ((0 : Nat) : Int) := rfl
  have hgt : ¬ ((saltLength : Int) > len ct) := by simp only [len]; omega
  have s1 : slice ct (len ct - (saltLength : Int)) (len ct)
      = .ok (ct.drop (ct.length - saltLength)) := by
    rw [e1, e2, slice_of_le _ _ _ (by omega) (by omega)]; simp
  have s2 : slice ct 0 (len ct - (saltLength : Int))
      = .ok (ct.take (ct.length - saltLength)) := by
    rw [e1, e0, slice_of_le _ _ _ (by omega) (by omega)]; simp
  have s3 : slice ct 0 (gcm.nonceSize : Int) = .ok (ct.take gcm.nonceSize) := by
    rw [e0, slice_of_le _ _ _ (by omega) (by omega)]; simp
  have s4 : slice ct (gcm.nonceSize : Int) (len ct - (saltLength : Int))
      = .ok ((ct.take (ct.length - saltLength)).drop gcm.nonceSize) := by
    rw [e1, slice_of_le _ _ _ (by omega) (by omega)]
  have hb : ¬ (len (ct.take (ct.length - saltLength)) < (gcm.nonceSize : Int)) := by
    simp only [len, List.length_take]; omega
  unfold decrypt
  simp only [hgt, s1, hk, hc, hg, s2, s3, s4, hb, AEAD.Open, bind, Except.bind, pure,
    Except.pure, if_false, List.nil_append]
  cases gcm.openRaw (ct.take gcm.nonceSize)
    ((ct.take (ct.length - saltLength)).drop gcm.nonceSize) [] <;> rfl

theorem decrypt_lt_salt (C : Crypto) (ct password : Bytes) (h : ct.length < saltLength) :
    decrypt C ct password = .error .fileWrongOrBroken := by
  have hgt : (saltLength : Int) > len ct := by simp only [len]; omega
  simp [decrypt, hgt, bind, Except.bind, throw, throwThe, MonadExceptOf.throw]

theorem decrypt_lt_nonce (C : Crypto) (ct password key : Bytes) (c : C.Block) (gcm : AEAD)
    (h1 : saltLength ≤ ct.length) (h2 : ct.length < saltLength + gcm.nonceSize)
    (hk : makeKey C password (ct.drop (ct.length - saltLength)) = .ok key)
    (hc : C.newCipher key = .ok c) (hg : C.newGCM c = .ok gcm) :
    decrypt C ct password = .error .ciphertextTooShort := by
  have e1 : len ct - (saltLength : Int) = ((ct.length - saltLength : Nat) : Int) := by
    simp only [len]; omega
  have e2 : len ct = ((ct.length : Nat) : Int) := rfl
  have e0 : (0 : Int) = ((0 : Nat) : Int) := rfl
  have hgt : ¬ ((saltLength : Int) > len ct) := by simp only [len]; omega
  have s1 : slice ct (len ct - (saltLength : Int)) (len ct)
      = .ok (ct.drop (ct.length - saltLength)) := by
    rw [e1, e2, slice_of_le _ _ _ (by omega) (by omega)]; simp
  have s2 : slice ct 0 (len ct - (saltLength : Int))
      = .ok (ct.take (ct.length - saltLength)) := by
    rw [e1, e0, slice_of_le _ _ _ (by omega) (by omega)]; simp
  have hb : len (ct.take (ct.length - saltLength)) < (gcm.nonceSize : Int) := by
    simp only [len, List.length_take]; omega
  unfold decrypt
  simp only [hgt, s1, hk, hc, hg, s2, hb, bind, Except.bind, pure,
    Except.pure, if_false, if_true, throw, throwThe, MonadExceptOf.throw]

theorem setup_steps (C : Crypto) (N : Nat) (hC : Setup C N) (password salt : Bytes) :
    ∃ (key : Bytes) (c : C.Block) (gcm : AEAD), makeKey C password salt = .ok key ∧
      C.newCipher key = .ok c ∧ C.newGCM c = .ok gcm ∧ gcm.nonceSize = N := by
  obtain ⟨key, hk, hkl⟩ := hC.scrypt_ok password salt
  obtain ⟨c, hc⟩ := hC.newCipher_ok key hkl
  obtain ⟨gcm, hg, hn⟩ := hC.newGCM_ok c
  exact ⟨key, c, gcm, hk, hc, hg, hn⟩

/-- The round trip of `encrypt` and `decrypt` on any plaintext. -/
theorem decrypt_encrypt (C : Crypto) (N : Nat) (hC : Setup C N) (hO : OpensOwnSeal C)
    (s n rest f pw : Bytes) (hs : s.length = saltLength) (hn : n.length = N) :
    ∃ ct, encrypt C (s ++ n ++ rest) f pw = .ok ct ∧ decrypt C ct pw = .ok f := by
  obtain ⟨key, c, gcm, hk, hc, hg, hN⟩ := setup_steps C N hC pw s
  have hn2 : n.length = gcm.nonceSize := by omega
  refine ⟨n ++ gcm.sealRaw n f [] ++ s, encrypt_of_steps C s n rest f pw key c gcm hs hk hc hg hn2, ?_⟩
  obtain ⟨p1, p2, p3⟩ := layout_parts n (gcm.sealRaw n f []) s
  rw [hs] at p2 p3
  rw [hn2] at p1 p3
  rw [decrypt_of_steps C _ pw key c gcm (by simp; omega) (by rw [p2]; exact hk) hc hg, p1, p3]
  exact hO c gcm n f hg hn2

/-- With any second password, `decrypt` of what `encrypt` returned is what the
AEAD keyed from the second password opens from the sealed text. -/
theorem decrypt_encrypt_other (C : Crypto) (s n rest f pw1 pw2 key1 key2 : Bytes)
    (blk1 blk2 : C.Block) (gcm1 gcm2 : AEAD) (hs : s.length = saltLength)
    (hk1 : makeKey C pw1 s = .ok key1) (hc1 : C.newCipher key1 = .ok blk1)
    (hg1 : C.newGCM blk1 = .ok gcm1)
    (hk2 : makeKey C pw2 s = .ok key2) (hc2 : C.newCipher key2 = .ok blk2)
    (hg2 : C.newGCM blk2 = .ok gcm2)
    (hn1 : n.length = gcm1.nonceSize) (hn2 : n.length = gcm2.nonceSize) :
    encrypt C (s ++ n ++ rest) f pw1 = .ok (n ++ gcm1.sealRaw n f [] ++ s) ∧
    decrypt C (n ++ gcm1.sealRaw n f [] ++ s) pw2 = gcm2.openRaw n (gcm1.sealRaw n f []) [] := by
  refine ⟨encrypt_of_steps C s n rest f pw1 key1 blk1 gcm1 hs hk1 hc1 hg1 hn1, ?_⟩
  obtain ⟨p1, p2, p3⟩ := layout_parts n (gcm1.sealRaw n f []) s
  rw [hs] at p2 p3
  rw [hn2] at p1 p3
  rw [decrypt_of_steps C _ pw2 key2 blk2 gcm2 (by simp; omega) (by rw [p2]; exact hk2) hc2 hg2,
    p1, p3]

/-! ## Framing and extraction -/

theorem encodeRune_length_le (r : Int) : (encodeRune r).length ≤ 4 := by
  unfold encodeRune
  split
  · simp
  · simp only []
    split
    · simp
    · split
      · simp
      · split <;> simp

/-- The check on `extLen` never fails: `frame` always returns the framed file. -/
theorem frame_eq (ext inputFile : Bytes) :
    frame ext inputFile = .ok (encodeRune (len ext - 1) ++ ext ++ inputFile) := by
  have hle : ∀ l : Bytes, l.length ≤ 4 → ¬ (len l > 256) := by
    intro l hl; simp only [len]; omega
  have hgt := hle _ (encodeRune_length_le (len ext - 1))
  simp [frame, hgt, bind, Except.bind, pure, Except.pure]

theorem encodeRune_small (k : Nat) (h : k ≤ 127) : encodeRune (k : Int) = [byte k] := by
  have h1 : ¬ ((k : Int) < 0 ∨ 0x10FFFF < (k : Int) ∨ (0xD800 ≤ (k : Int) ∧ (k : Int) ≤ 0xDFFF)) := by
    omega
  unfold encodeRune
  rw [if_neg h1]
  simp only [Int.toNat_ofNat, h, if_true]

theorem encodeRune_neg_one : encodeRune (-1) = [0xEF, 0xBF, 0xBD] := by decide

theorem extract_length (file ext outputFile : Bytes)
    (h : extract file = .ok (ext, outputFile)) :
    ext.length + outputFile.length + 1 = file.length := by
  unfold extract at h
  simp only [bind, Except.bind, pure, Except.pure] at h
  split at h
  · simp at h
  · rename_i b _
    split at h
    · simp at h
    · rename_i e he
      split at h
      · simp at h
      · rename_i o ho
        simp only [Except.ok.injEq, Prod.mk.injEq] at h
        obtain ⟨h1, h2⟩ := h
        subst h1 h2
        have a := slice_length _ _ _ _ he
        have b := slice_length _ _ _ _ ho
        simp only [len] at a b
        omega

theorem extract_cons (b : Byte) (ext d : Bytes) (h : b.val + 1 = ext.length) :
    extract (b :: (ext ++ d)) = .ok (ext, d) := by
  have hi : index (b :: (ext ++ d)) 0 = .ok b := by simp [index]
  have e1 : (1 : Int) = ((1 : Nat) : Int) := rfl
  have e2 : ((b.val : Nat) : Int) + 2 = ((b.val + 2 : Nat) : Int) := by omega
  have e3 : len (b :: (ext ++ d)) = (((b :: (ext ++ d)).length : Nat) : Int) := rfl
  have hl : (b :: (ext ++ d)).length = ext.length + d.length + 1 := by simp
  have s1 : slice (b :: (ext ++ d)) 1 (((b.val : Nat) : Int) + 2) = .ok ext := by
    rw [e1, e2, slice_of_le _ _ _ (by omega) (by omega)]
    have : b.val + 2 = ext.length + 1 := by omega
    rw [this]
    simp
  have s2 : slice (b :: (ext ++ d)) (((b.val : Nat) : Int) + 2) (len (b :: (ext ++ d)))
      = .ok d := by
    rw [e2, e3, slice_of_le _ _ _ (by omega) (by omega), List.take_length]
    have : b.val + 2 = ext.length + 1 := by omega
    rw [this]
    simp
  unfold extract
  simp only [hi, s1, s2, bind, Except.bind, pure, Except.pure]

/-- In the working domain the length bytes are the single byte `len(ext) - 1` and
the extraction returns the extension and the content. -/
theorem frame_extract (ext d : Bytes) (h1 : 1 ≤ ext.length) (h2 : ext.length ≤ 128) :
    encodeRune (len ext - 1) = [byte (ext.length - 1)] ∧
    (byte (ext.length - 1)).val = ext.length - 1 ∧
    frame ext d = .ok (byte (ext.length - 1) :: (ext ++ d)) ∧
    extract (byte (ext.length - 1) :: (ext ++ d)) = .ok (ext, d) := by
  have e : len ext - 1 = ((ext.length - 1 : Nat) : Int) := by simp only [len]; omega
  have hr : encodeRune (len ext - 1) = [byte (ext.length - 1)] := by
    rw [e]; exact encodeRune_small _ (by omega)
  have hv : (byte (ext.length - 1)).val = ext.length - 1 := by
    simp only [byte]; omega
  refine ⟨hr, hv, ?_, ?_⟩
  · rw [frame_eq, hr]; simp
  · exact extract_cons _ _ _ (by omega)

/-- When the length bytes are not a single byte, the extraction cannot return
the extension and the content that were framed. -/
theorem frame_extract_ne (ext d file : Bytes) (h : (encodeRune (len ext - 1)).length ≠ 1)
    (hf : frame ext d = .ok file) : extract file ≠ .ok (ext, d) := by
  rw [frame_eq] at hf
  simp only [Except.ok.injEq] at hf
  intro he
  have hl := extract_length _ _ _ he
  rw [← hf] at hl
  simp only [List.length_append] at hl
  omega

/-! ## The small instance satisfies the library facts -/

theorem demoTag_length (key : Bytes) : (demoTag key).length = 16 := by
  simp [demoTag, List.length_take]

theorem demoCrypto_setup : Setup demoCrypto 12 where
  scrypt_ok := by
    intro password salt
    refine ⟨_, rfl, ?_⟩
    simp only [List.length_take, List.length_append, List.length_replicate, keyLength]
    omega
  newCipher_ok := by
    intro key hk
    refine ⟨key, ?_⟩
    simp [demoCrypto, hk, keyLength]
  newGCM_ok := by
    intro c
    exact ⟨demoGCM c, rfl, rfl⟩

theorem demoCrypto_opens : OpensOwnSeal demoCrypto := by
  intro c gcm nonce plaintext hg _
  simp only [demoCrypto, Except.ok.injEq] at hg
  subst hg
  have hl := demoTag_length c
  simp [demoGCM, hl]

theorem demoCrypto_tag : TagSize demoCrypto 16 := by
  intro c gcm nonce plaintext ad hg
  simp only [demoCrypto, Except.ok.injEq] at hg
  subst hg
  simp [demoGCM, demoTag_length]

/-! ## AES-GCM: published test vectors -/

set_option maxRecDepth 100000 in
/-- FIPS 197, appendix C.3: AES-256 on the example block. -/
theorem aesEncryptBlock_fips197 :
    aesEncryptBlock (List.range 32)
      [0x00, 0x11, 0x22, 0x33, 0x44, 0x55, 0x66, 0x77, 0x88, 0x99, 0xAA, 0xBB, 0xCC, 0xDD,
        0xEE, 0xFF]
      = [0x8E, 0xA2, 0xB7, 0xCA, 0x51, 0x67, 0x45, 0xBF, 0xEA, 0xFC, 0x49, 0x90, 0x4B, 0x49,
        0x60, 0x89] := by
  decide

set_option maxRecDepth 100000 in
/-- GCM test case 14 of the GCM specification: zero key of 32 bytes, zero nonce,
one zero block. -/
theorem gcmSeal_test_case_14 :
    gcmSeal (List.replicate 32 0) (List.replicate 12 0) (List.replicate 16 0) []
      = [0xCE, 0xA7, 0x40, 0x3D, 0x4D, 0x60, 0x6B, 0x6E, 0x07, 0x4E, 0xC5, 0xD3, 0xBA, 0xF3,
         0x9D, 0x18, 0xD0, 0xD1, 0xC8, 0xA7, 0x99, 0x99, 0x6B, 0xF0, 0x26, 0x5B, 0x98, 0xB5,
         0xD4, 0x8A, 0xB9, 0x19] := by
  decide

/-! ## main around encrypt and decrypt -/

theorem mainEncrypt_eq (C : Crypto) (rnd ext d pw : Bytes) :
    mainEncrypt C rnd ext d pw = encrypt C rnd (encodeRune (len ext - 1) ++ ext ++ d) pw := by
  simp [mainEncrypt, frame_eq, bind, Except.bind]

theorem mainDecrypt_of_ok (C : Crypto) (ct pw file : Bytes) (h : decrypt C ct pw = .ok file) :
    mainDecrypt C ct pw = extract file := by
  simp [mainDecrypt, h, bind, Except.bind]

theorem mainDecrypt_of_error (C : Crypto) (ct pw : Bytes) (e : Error)
    (h : decrypt C ct pw = .error e) : mainDecrypt C ct pw = .error e := by
  simp [mainDecrypt, h, bind, Except.bind]

theorem extract_panic (b : Byte) (rest : Bytes) (h : rest.length < b.val + 1) :
    extract (b :: rest) = .error .panic := by
  have hi : index (b :: rest) 0 = .ok b := by simp [index]
  have s1 : slice (b :: rest) 1 (((b.val : Nat) : Int) + 2) = .error .panic := by
    apply slice_panic
    simp only [len, List.length_cons]; omega
  unfold extract
  simp only [hi, s1, bind, Except.bind]

/-- The ".txt" scenario for any libraries with a 12-byte nonce and a 16-byte tag:
the container has 68 bytes. -/
theorem txt_container_length (C : Crypto) (hC : Setup C 12) (hT : TagSize C 16)
    (s n rest : Bytes) (hs : s.length = saltLength) (hn : n.length = 12) :
    ∃ c, mainEncrypt C (s ++ n ++ rest) dotTxt abc hunter2 = .ok c ∧ c.length = 68 := by
  obtain ⟨key, blk, gcm, hk, hc, hg, hN⟩ := setup_steps C 12 hC hunter2 s
  refine ⟨n ++ gcm.sealRaw n (encodeRune (len dotTxt - 1) ++ dotTxt ++ abc) [] ++ s, ?_, ?_⟩
  · rw [mainEncrypt_eq]
    exact encrypt_of_steps C s n rest _ hunter2 key blk gcm hs hk hc hg (by omega)
  · have hl := hT blk gcm n (encodeRune (len dotTxt - 1) ++ dotTxt ++ abc) [] hg
    have hf : (encodeRune (len dotTxt - 1) ++ dotTxt ++ abc).length = 8 := by decide
    simp only [List.length_append, hl, hf, hs, hn, saltLength]

theorem encodeRune_two_bytes (k : Nat) (h1 : 128 ≤ k) (h2 : k ≤ 255) :
    ∃ b1 b2 : Byte, encodeRune (k : Int) = [b1, b2] ∧ 194 ≤ b1.val := by
  have h0 : ¬ ((k : Int) < 0 ∨ 0x10FFFF < (k : Int) ∨ (0xD800 ≤ (k : Int) ∧ (k : Int) ≤ 0xDFFF)) := by
    omega
  have h3 : ¬ (k ≤ 127) := by omega
  have h4 : k ≤ 2047 := by omega
  refine ⟨byte (0xC0 ||| (k >>> 6)), byte (0x80 ||| (k &&& 0x3F)), ?_, ?_⟩
  · unfold encodeRune
    rw [if_neg h0]
    simp only [Int.toNat_ofNat, h3, h4, if_true, if_false]
  · have hk : k >>> 6 = 2 ∨ k >>> 6 = 3 := by
      rw [Nat.shiftRight_eq_div_pow]; omega
    rcases hk with hk | hk <;> rw [hk] <;> decide

theorem dotA_length (k : Nat) : (dotA k).length = k + 1 := by
  simp [dotA]

theorem accents_length (k : Nat) : (accents k).length = 2 * k := by
  induction k with
  | zero => rfl
  | succ k ih => simp only [accents, List.length_cons, ih]; omega

theorem dotExt_length (j k : Nat) : (dotExt j k).length = 1 + j + 2 * k := by
  simp only [dotExt, List.length_cons, List.length_append, List.length_replicate,
    accents_length]
  omega

theorem list_parts (c : Bytes) (a b : Nat) (h : a ≤ b) :
    c = c.take a ++ (c.take b).drop a ++ c.drop b := by
  have h1 : c.take a = (c.take b).take a := by
    rw [List.take_take, Nat.min_eq_left h]
  rw [h1, List.take_append_drop, List.take_append_drop]

/-! ## The claims -/

/-- C1 (fails on the code). For a file without extension the round trip does not
return the file: `len(ext) - 1` is `-1`, `[]byte(string(-1))` is the three
bytes `EF BF BD`, the decrypt side reads `0xEF = 239` as the extension length,
so it never returns the empty extension with the content, and it panics on the
slice `file[1:241]` when the content has fewer than 238 bytes. -/
theorem roundtrip_without_extension (C : Crypto) (N : Nat) (hC : Setup C N)
    (hO : OpensOwnSeal C) (s n rest p pw : Bytes)
    (hs : s.length = saltLength) (hn : n.length = N) :
    ∃ c, mainEncrypt C (s ++ n ++ rest) [] p pw = .ok c ∧
      mainDecrypt C c pw ≠ .ok ([], p) ∧
      (p.length < 238 → mainDecrypt C c pw = .error .panic) := by
  obtain ⟨ct, he, hd⟩ := decrypt_encrypt C N hC hO s n rest
    (encodeRune (len [] - 1) ++ [] ++ p) pw hs hn
  refine ⟨ct, by rw [mainEncrypt_eq]; exact he, ?_, ?_⟩
  · rw [mainDecrypt_of_ok C ct pw _ hd]
    exact frame_extract_ne [] p _ (by decide) (frame_eq [] p)
  · intro hp
    rw [mainDecrypt_of_ok C ct pw _ hd]
    have e : encodeRune (len [] - 1) ++ [] ++ p = 0xEF :: (0xBF :: 0xBD :: p) := by
      have : len [] - 1 = -1 := by decide
      rw [this, encodeRune_neg_one]; rfl
    rw [e]
    apply extract_panic
    have : ((0xEF : Byte) : Nat) = 239 := by decide
    simp only [List.length_cons, this]; omega

theorem roundtrip_without_extension_witness :
    ∃ c, mainEncrypt demoCrypto (demoSalt ++ demoNonce ++ []) [] abc hunter2 = .ok c ∧
      mainDecrypt demoCrypto c hunter2 ≠ .ok ([], abc) ∧
      (abc.length < 238 → mainDecrypt demoCrypto c hunter2 = .error .panic) :=
  roundtrip_without_extension demoCrypto 12 demoCrypto_setup demoCrypto_opens
    demoSalt demoNonce [] abc hunter2 (by decide) (by decide)

set_option maxRecDepth 100000 in
/-- C2 as stated is false. With the salt `demoSalt` and the nonce `craftedNonce`
drawn, sealing the 27-byte file `craftedContent` with extension ".txt" under the
password "hunter2" gives `craftedContainer`; with the password "wrong", which
differs, `decrypt` on that container does not fail: AES-GCM under the key
derived from "wrong" verifies the tag and returns the 32 bytes `craftedOpened`,
from which `main` takes an extension of 27 bytes and a content of 4 bytes. -/
theorem wrong_password_counterexample :
    hunter2 ≠ wrong ∧
    mainEncrypt aesCrypto (demoSalt ++ craftedNonce) dotTxt craftedContent hunter2
      = .ok craftedContainer ∧
    decrypt aesCrypto craftedContainer wrong = .ok craftedOpened ∧
    mainDecrypt aesCrypto craftedContainer wrong
      = .ok ((craftedOpened.take 28).drop 1, craftedOpened.drop 28) ∧
    mainDecrypt aesCrypto craftedContainer wrong ≠ .error .authFailed := by
  have he : mainEncrypt aesCrypto (demoSalt ++ craftedNonce) dotTxt craftedContent hunter2
      = .ok craftedContainer := by decide
  have hd : decrypt aesCrypto craftedContainer wrong = .ok craftedOpened := by decide
  have hx : extract craftedOpened
      = .ok ((craftedOpened.take 28).drop 1, craftedOpened.drop 28) := by decide
  have hm : mainDecrypt aesCrypto craftedContainer wrong
      = .ok ((craftedOpened.take 28).drop 1, craftedOpened.drop 28) := by
    rw [mainDecrypt_of_ok aesCrypto craftedContainer wrong craftedOpened hd]; exact hx
  refine ⟨by decide, he, hd, hm, ?_⟩
  rw [hm]
  exact fun h => Except.noConfusion h

/-- C2 (amended). Wrong password: for every plaintext `p`, extension `e` and
passwords `pw1`, `pw2`, opening under `pw2` the container sealed under `pw1`
re-derives the key from the stored salt and `pw2` and returns what the AEAD open
under that key returns on the sealed payload; whenever that open rejects the
payload, `decrypt` and `main` fail with the authentication error and return no
plaintext. -/
theorem wrong_password_returns_open (C : Crypto) (pw1 pw2 s n rest e p key1 key2 : Bytes)
    (blk1 blk2 : C.Block) (gcm1 gcm2 : AEAD) (hs : s.length = saltLength)
    (hk1 : makeKey C pw1 s = .ok key1) (hc1 : C.newCipher key1 = .ok blk1)
    (hg1 : C.newGCM blk1 = .ok gcm1)
    (hk2 : makeKey C pw2 s = .ok key2) (hc2 : C.newCipher key2 = .ok blk2)
    (hg2 : C.newGCM blk2 = .ok gcm2)
    (hn1 : n.length = gcm1.nonceSize) (hn2 : n.length = gcm2.nonceSize) :
    mainEncrypt C (s ++ n ++ rest) e p pw1
      = .ok (n ++ gcm1.sealRaw n (encodeRune (len e - 1) ++ e ++ p) [] ++ s) ∧
    decrypt C (n ++ gcm1.sealRaw n (encodeRune (len e - 1) ++ e ++ p) [] ++ s) pw2
      = gcm2.openRaw n (gcm1.sealRaw n (encodeRune (len e - 1) ++ e ++ p) []) [] ∧
    (gcm2.openRaw n (gcm1.sealRaw n (encodeRune (len e - 1) ++ e ++ p) []) []
        = .error .authFailed →
      decrypt C (n ++ gcm1.sealRaw n (encodeRune (len e - 1) ++ e ++ p) [] ++ s) pw2
        = .error .authFailed ∧
      mainDecrypt C (n ++ gcm1.sealRaw n (encodeRune (len e - 1) ++ e ++ p) [] ++ s) pw2
        = .error .authFailed) := by
  obtain ⟨he, hd⟩ := decrypt_encrypt_other C s n rest (encodeRune (len e - 1) ++ e ++ p)
    pw1 pw2 key1 key2 blk1 blk2 gcm1 gcm2 hs hk1 hc1 hg1 hk2 hc2 hg2 hn1 hn2
  refine ⟨by rw [mainEncrypt_eq]; exact he, hd, ?_⟩
  intro hrej
  rw [hrej] at hd
  exact ⟨hd, mainDecrypt_of_error C _ pw2 _ hd⟩

set_option maxRecDepth 100000 in
theorem wrong_password_returns_open_witness :
    (aesGCM wrongKey).openRaw demoNonce
        ((aesGCM hunter2Key).sealRaw demoNonce (encodeRune (len dotTxt - 1) ++ dotTxt ++ abc) [])
        [] = .error .authFailed ∧
    mainDecrypt aesCrypto
        (demoNonce
          ++ (aesGCM hunter2Key).sealRaw demoNonce (encodeRune (len dotTxt - 1) ++ dotTxt ++ abc) []
          ++ demoSalt) wrong
      = .error .authFailed :=
  have h : (aesGCM wrongKey).openRaw demoNonce
      ((aesGCM hunter2Key).sealRaw demoNonce (encodeRune (len dotTxt - 1) ++ dotTxt ++ abc) [])
      [] = .error .authFailed := by decide
  ⟨h, ((wrong_password_returns_open aesCrypto hunter2 wrong demoSalt demoNonce [] dotTxt abc
      hunter2Key wrongKey hunter2Key wrongKey (aesGCM hunter2Key) (aesGCM wrongKey)
      (by decide) (by decide) rfl rfl (by decide) rfl rfl (by decide) (by decide)).2.2 h).2⟩

/-- C3. Minimum size: a container shorter than `32 + NONCE_SIZE` makes `decrypt`
return the error "File is wrong or broken" when it has fewer than 32 bytes and
the error "Ciphertext is too short" otherwise; in neither case is a slice
expression evaluated out of bounds (the result is not a panic). -/
theorem decrypt_too_short (C : Crypto) (N : Nat) (hC : Setup C N) (c password : Bytes)
    (hlen : c.length < saltLength + N) :
    (c.length < saltLength → decrypt C c password = .error .fileWrongOrBroken) ∧
    (saltLength ≤ c.length → decrypt C c password = .error .ciphertextTooShort) ∧
    decrypt C c password ≠ .error .panic := by
  have h1 : c.length < saltLength → decrypt C c password = .error .fileWrongOrBroken :=
    decrypt_lt_salt C c password
  have h2 : saltLength ≤ c.length → decrypt C c password = .error .ciphertextTooShort := by
    intro h
    obtain ⟨key, blk, gcm, hk, hc, hg, hN⟩ :=
      setup_steps C N hC password (c.drop (c.length - saltLength))
    exact decrypt_lt_nonce C c password key blk gcm h (by omega) hk hc hg
  refine ⟨h1, h2, ?_⟩
  by_cases h : c.length < saltLength
  · rw [h1 h]; decide
  · rw [h2 (by omega)]; decide

theorem decrypt_too_short_witness :
    decrypt demoCrypto (List.replicate 31 0) hunter2 = .error .fileWrongOrBroken ∧
    decrypt demoCrypto (List.replicate 43 0) hunter2 = .error .ciphertextTooShort :=
  ⟨(decrypt_too_short demoCrypto 12 demoCrypto_setup (List.replicate 31 0) hunter2
      (by decide)).1 (by decide),
   (decrypt_too_short demoCrypto 12 demoCrypto_setup (List.replicate 43 0) hunter2
      (by decide)).2.1 (by decide)⟩

/-- C4 (fails on the code). The check before encryption is on the length of the
length bytes `extLen`, which is at most 4, so it never rejects: for every
extension `main` goes on to call `encrypt` on the framed file. In particular
an extension of 257 bytes (a dot and 128 two-byte letters; above the limit of
256 in the error message) is framed with the length bytes `C4 80`, and one of
256 bytes with the length bytes `C3 BF`. -/
theorem extension_check_never_rejects :
    (∀ (C : Crypto) (rnd ext d pw : Bytes),
      mainEncrypt C rnd ext d pw = encrypt C rnd (encodeRune (len ext - 1) ++ ext ++ d) pw) ∧
    (∀ ext d : Bytes, frame ext d ≠ .error .extensionTooLong) ∧
    (dotExt 0 128).length = 257 ∧
    frame (dotExt 0 128) [] = .ok (0xC4 :: 0x80 :: dotExt 0 128) ∧
    (dotExt 1 127).length = 256 ∧
    frame (dotExt 1 127) [] = .ok (0xC3 :: 0xBF :: dotExt 1 127) := by
  refine ⟨mainEncrypt_eq, ?_, dotExt_length 0 128, ?_, dotExt_length 1 127, ?_⟩
  · intro ext d
    rw [frame_eq]
    simp
  · rw [frame_eq]
    have e : len (dotExt 0 128) - 1 = ((256 : Nat) : Int) := by
      simp only [len, dotExt_length]; omega
    rw [e]
    have : encodeRune ((256 : Nat) : Int) = [0xC4, 0x80] := by decide
    rw [this]; simp only [List.cons_append, List.nil_append, List.append_nil]
  · rw [frame_eq]
    have e : len (dotExt 1 127) - 1 = ((255 : Nat) : Int) := by
      simp only [len, dotExt_length]; omega
    rw [e]
    have : encodeRune ((255 : Nat) : Int) = [0xC3, 0xBF] := by decide
    rw [this]; simp only [List.cons_append, List.nil_append, List.append_nil]

/-- C5. Container layout: when the salt `s` (32 bytes) and the nonce `n`
(`NONCE_SIZE` bytes) are drawn and the key derivation and the cipher
construction succeed, `encrypt` returns exactly
`n ++ Seal(key, n, f, no additional data) ++ s` with `key = makeKey(pw, s)`; its
first `NONCE_SIZE` bytes are the nonce, its last 32 bytes are the salt, and its
length is `NONCE_SIZE + len(f) + TAG_SIZE + 32`. -/
theorem encrypt_layout (C : Crypto) (T : Nat) (hT : TagSize C T)
    (f pw s n rest key : Bytes) (blk : C.Block) (gcm : AEAD)
    (hs : s.length = saltLength) (hk : makeKey C pw s = .ok key)
    (hc : C.newCipher key = .ok blk) (hg : C.newGCM blk = .ok gcm)
    (hn : n.length = gcm.nonceSize) :
    encrypt C (s ++ n ++ rest) f pw = .ok (n ++ gcm.sealRaw n f [] ++ s) ∧
    (n ++ gcm.sealRaw n f [] ++ s).take gcm.nonceSize = n ∧
    (n ++ gcm.sealRaw n f [] ++ s).drop ((n ++ gcm.sealRaw n f [] ++ s).length - saltLength) = s ∧
    (n ++ gcm.sealRaw n f [] ++ s).length = gcm.nonceSize + f.length + T + saltLength := by
  obtain ⟨p1, p2, _⟩ := layout_parts n (gcm.sealRaw n f []) s
  rw [hs] at p2
  rw [hn] at p1
  refine ⟨encrypt_of_steps C s n rest f pw key blk gcm hs hk hc hg hn, p1, p2, ?_⟩
  simp only [List.length_append, hT blk gcm n f [] hg, hs, hn]
  omega

theorem encrypt_layout_witness :
    encrypt demoCrypto (demoSalt ++ demoNonce ++ []) abc hunter2
      = .ok (demoNonce ++ (demoGCM ((hunter2 ++ demoSalt).take 32)).sealRaw demoNonce abc []
          ++ demoSalt) ∧
    (demoNonce ++ (demoGCM ((hunter2 ++ demoSalt).take 32)).sealRaw demoNonce abc []
      ++ demoSalt).take (demoGCM ((hunter2 ++ demoSalt).take 32)).nonceSize = demoNonce ∧
    (demoNonce ++ (demoGCM ((hunter2 ++ demoSalt).take 32)).sealRaw demoNonce abc []
      ++ demoSalt).drop
        ((demoNonce ++ (demoGCM ((hunter2 ++ demoSalt).take 32)).sealRaw demoNonce abc []
          ++ demoSalt).length - saltLength) = demoSalt ∧
    (demoNonce ++ (demoGCM ((hunter2 ++ demoSalt).take 32)).sealRaw demoNonce abc []
      ++ demoSalt).length
      = (demoGCM ((hunter2 ++ demoSalt).take 32)).nonceSize + abc.length + 16 + saltLength :=
  encrypt_layout demoCrypto 16 demoCrypto_tag abc hunter2 demoSalt demoNonce []
    ((hunter2 ++ demoSalt).take 32) ((hunter2 ++ demoSalt).take 32)
    (demoGCM ((hunter2 ++ demoSalt).take 32)) (by decide) (by decide) rfl rfl
    (by decide)

/-- C6. Decrypt parsing: for a container `c` of at least `32 + NONCE_SIZE` bytes,
`decrypt` derives the key from the password and the last 32 bytes of `c` and
returns what the AEAD open returns on the first `NONCE_SIZE` bytes of `c` as
nonce and the bytes strictly between as sealed text: the opened plaintext
unchanged on success, the error and no plaintext otherwise. The three parts
make up the whole container. -/
theorem decrypt_parsing (C : Crypto) (N : Nat) (hC : Setup C N) (c pw : Bytes)
    (hlen : saltLength + N ≤ c.length) :
    ∃ (key : Bytes) (blk : C.Block) (gcm : AEAD),
      makeKey C pw (c.drop (c.length - saltLength)) = .ok key ∧
      C.newCipher key = .ok blk ∧ C.newGCM blk = .ok gcm ∧ gcm.nonceSize = N ∧
      decrypt C c pw
        = gcm.openRaw (c.take N) ((c.take (c.length - saltLength)).drop N) [] ∧
      c = c.take N ++ (c.take (c.length - saltLength)).drop N
            ++ c.drop (c.length - saltLength) ∧
      (c.take N).length = N ∧ (c.drop (c.length - saltLength)).length = saltLength := by
  obtain ⟨key, blk, gcm, hk, hc, hg, hN⟩ :=
    setup_steps C N hC pw (c.drop (c.length - saltLength))
  refine ⟨key, blk, gcm, hk, hc, hg, hN, ?_, list_parts c _ _ (by omega), ?_, ?_⟩
  · rw [decrypt_of_steps C c pw key blk gcm (by omega) hk hc hg, hN]
  · simp only [List.length_take]; omega
  · simp only [List.length_drop]; omega

theorem decrypt_parsing_witness :
    ∃ (key : Bytes) (blk : demoCrypto.Block) (gcm : AEAD),
      makeKey demoCrypto hunter2
        ((demoNonce ++ abc ++ demoSalt).drop ((demoNonce ++ abc ++ demoSalt).length - saltLength))
        = .ok key ∧
      demoCrypto.newCipher key = .ok blk ∧ demoCrypto.newGCM blk = .ok gcm ∧
      gcm.nonceSize = 12 ∧
      decrypt demoCrypto (demoNonce ++ abc ++ demoSalt) hunter2
        = gcm.openRaw ((demoNonce ++ abc ++ demoSalt).take 12)
            (((demoNonce ++ abc ++ demoSalt).take
              ((demoNonce ++ abc ++ demoSalt).length - saltLength)).drop 12) [] ∧
      demoNonce ++ abc ++ demoSalt
        = (demoNonce ++ abc ++ demoSalt).take 12
          ++ ((demoNonce ++ abc ++ demoSalt).take
              ((demoNonce ++ abc ++ demoSalt).length - saltLength)).drop 12
          ++ (demoNonce ++ abc ++ demoSalt).drop
              ((demoNonce ++ abc ++ demoSalt).length - saltLength) ∧
      ((demoNonce ++ abc ++ demoSalt).take 12).length = 12 ∧
      ((demoNonce ++ abc ++ demoSalt).drop
        ((demoNonce ++ abc ++ demoSalt).length - saltLength)).length = saltLength :=
  decrypt_parsing demoCrypto 12 demoCrypto_setup (demoNonce ++ abc ++ demoSalt) hunter2
    (by decide)

/-- C7 as stated is false. Sealing the 3-byte file `[0x41, 0x42, 0x43]` with
extension ".txt" and password "hunter2" gives a container of 68 bytes, not of
`12 + (1 + 5 + 3 + 16) + 32 = 69`: the extension ".txt" has 4 bytes. Shown on
the small instance (nonce 12, tag 16) and as the failure of the claimed length
for libraries with these sizes. -/
theorem txt_length_counterexample :
    (∃ c, mainEncrypt demoCrypto (demoSalt ++ demoNonce ++ []) dotTxt abc hunter2 = .ok c ∧
      c.length = 68 ∧ c.length ≠ 12 + (1 + 5 + 3 + 16) + 32) ∧
    ¬ (∀ (C : Crypto) (s n rest c : Bytes), Setup C 12 → TagSize C 16 →
        s.length = saltLength → n.length = 12 →
        mainEncrypt C (s ++ n ++ rest) dotTxt abc hunter2 = .ok c →
        c.length = 12 + (1 + 5 + 3 + 16) + 32) := by
  obtain ⟨c, hc, hl⟩ := txt_container_length demoCrypto demoCrypto_setup demoCrypto_tag
    demoSalt demoNonce [] (by decide) (by decide)
  refine ⟨⟨c, hc, hl, by omega⟩, ?_⟩
  intro h
  have := h demoCrypto demoSalt demoNonce [] c demoCrypto_setup demoCrypto_tag
    (by decide) (by decide) hc
  omega

/-- C7 (amended). Sealing the 3-byte file `[0x41, 0x42, 0x43]` with extension
".txt" and password "hunter2" yields a container of length
`NONCE_SIZE + (1 + 4 + 3 + TAG_SIZE) + 32` with `NONCE_SIZE = 12` and
`TAG_SIZE = 16`, and opening that container with "hunter2" returns the
extension ".txt" and the content `[0x41, 0x42, 0x43]`. -/
theorem txt_scenario (C : Crypto) (hC : Setup C 12) (hT : TagSize C 16) (hO : OpensOwnSeal C)
    (s n rest : Bytes) (hs : s.length = saltLength) (hn : n.length = 12) :
    ∃ c, mainEncrypt C (s ++ n ++ rest) dotTxt abc hunter2 = .ok c ∧
      c.length = 12 + (1 + 4 + 3 + 16) + 32 ∧
      mainDecrypt C c hunter2 = .ok (dotTxt, abc) := by
  obtain ⟨c, hc, hl⟩ := txt_container_length C hC hT s n rest hs hn
  obtain ⟨ct, he, hd⟩ := decrypt_encrypt C 12 hC hO s n rest
    (encodeRune (len dotTxt - 1) ++ dotTxt ++ abc) hunter2 hs hn
  rw [mainEncrypt_eq, he] at hc
  simp only [Except.ok.injEq] at hc
  subst hc
  refine ⟨ct, by rw [mainEncrypt_eq]; exact he, by omega, ?_⟩
  rw [mainDecrypt_of_ok C ct hunter2 _ hd]
  decide

theorem txt_scenario_witness :
    ∃ c, mainEncrypt demoCrypto (demoSalt ++ demoNonce ++ []) dotTxt abc hunter2 = .ok c ∧
      c.length = 12 + (1 + 4 + 3 + 16) + 32 ∧
      mainDecrypt demoCrypto c hunter2 = .ok (dotTxt, abc) :=
  txt_scenario demoCrypto demoCrypto_setup demoCrypto_tag demoCrypto_opens
    demoSalt demoNonce [] (by decide) (by decide)

/-- C8 (fails on the code). For an extension of 129 bytes the framed plaintext
starts with the two length bytes `C2 80`, the UTF-8 encoding of 128, and has
`2 + len(ext) + len(d)` bytes; for a file without extension it starts with the
three bytes `EF BF BD`. Neither is rejected by the check. -/
theorem frame_length_bytes_not_single :
    frame (dotA 128) [] = .ok (0xC2 :: 0x80 :: dotA 128) ∧
    (0xC2 :: 0x80 :: dotA 128).length = 131 ∧
    1 + (dotA 128).length + ([] : Bytes).length = 130 ∧
    frame [] abc = .ok [0xEF, 0xBF, 0xBD, 0x41, 0x42, 0x43] := by
  refine ⟨?_, ?_, ?_, by decide⟩
  · rw [frame_eq]
    have e : len (dotA 128) - 1 = ((128 : Nat) : Int) := by
      simp only [len, dotA_length]; omega
    rw [e]
    have : encodeRune ((128 : Nat) : Int) = [0xC2, 0x80] := by decide
    rw [this]; simp only [List.cons_append, List.nil_append, List.append_nil]
  · simp only [List.length_cons, dotA_length]
  · simp only [dotA_length, List.length_nil]

/-- C9 (fails on the code). For every extension of 129 to 256 bytes the length
is written as two bytes, so the framed file has `2 + len(ext) + len(d)` bytes,
the extraction never returns the extension and content that were framed, and it
panics on the slice `file[1 : extLen+2]` when the framed file has fewer than
196 bytes. -/
theorem pairing_fails_above_128 (ext d file : Bytes) (h1 : 129 ≤ ext.length)
    (h2 : ext.length ≤ 256) (hf : frame ext d = .ok file) :
    file.length = 2 + ext.length + d.length ∧
    extract file ≠ .ok (ext, d) ∧
    (file.length < 196 → extract file = .error .panic) := by
  have e : len ext - 1 = ((ext.length - 1 : Nat) : Int) := by simp only [len]; omega
  obtain ⟨b1, b2, hb, hv⟩ := encodeRune_two_bytes (ext.length - 1) (by omega) (by omega)
  have hne : (encodeRune (len ext - 1)).length ≠ 1 := by rw [e, hb]; simp
  have hfile : file = b1 :: (b2 :: (ext ++ d)) := by
    rw [frame_eq, e, hb] at hf
    simp only [Except.ok.injEq] at hf
    rw [← hf]; simp
  have hl : file.length = 2 + ext.length + d.length := by
    rw [hfile]; simp only [List.length_append, List.length_cons]; omega
  refine ⟨hl, frame_extract_ne ext d file hne hf, ?_⟩
  intro hlt
  rw [hfile]
  apply extract_panic
  simp only [List.length_append, List.length_cons]; omega

theorem pairing_fails_above_128_witness :
    (encodeRune (len (dotA 128) - 1) ++ dotA 128 ++ []).length
      = 2 + (dotA 128).length + ([] : Bytes).length ∧
    extract (encodeRune (len (dotA 128) - 1) ++ dotA 128 ++ []) ≠ .ok (dotA 128, []) ∧
    ((encodeRune (len (dotA 128) - 1) ++ dotA 128 ++ []).length < 196 →
      extract (encodeRune (len (dotA 128) - 1) ++ dotA 128 ++ []) = .error .panic) :=
  pairing_fails_above_128 (dotA 128) [] (encodeRune (len (dotA 128) - 1) ++ dotA 128 ++ [])
    (by have := dotA_length 128; omega) (by have := dotA_length 128; omega)
    (frame_eq (dotA 128) [])

/-- C10. Working domain of the round trip: for an extension of 1 to 128 bytes,
any content, password, salt and nonce, the length bytes are the single byte
`len(ext) - 1`, the extraction on the framed file stays in bounds and returns
the extension and the content, and `decrypt` followed by the extraction, on what
`encrypt` returned for the framed file, returns exactly the extension and the
content. -/
theorem roundtrip_working_domain (C : Crypto) (N : Nat) (hC : Setup C N) (hO : OpensOwnSeal C)
    (s n rest ext d pw : Bytes) (hs : s.length = saltLength) (hn : n.length = N)
    (h1 : 1 ≤ ext.length) (h2 : ext.length ≤ 128) :
    encodeRune (len ext - 1) = [byte (ext.length - 1)] ∧
    (byte (ext.length - 1)).val = ext.length - 1 ∧
    frame ext d = .ok (byte (ext.length - 1) :: (ext ++ d)) ∧
    extract (byte (ext.length - 1) :: (ext ++ d)) = .ok (ext, d) ∧
    ∃ c, mainEncrypt C (s ++ n ++ rest) ext d pw = .ok c ∧
      decrypt C c pw = .ok (byte (ext.length - 1) :: (ext ++ d)) ∧
      mainDecrypt C c pw = .ok (ext, d) := by
  obtain ⟨hr, hv, hf, hx⟩ := frame_extract ext d h1 h2
  refine ⟨hr, hv, hf, hx, ?_⟩
  obtain ⟨ct, he, hd⟩ := decrypt_encrypt C N hC hO s n rest
    (byte (ext.length - 1) :: (ext ++ d)) pw hs hn
  refine ⟨ct, ?_, hd, ?_⟩
  · rw [mainEncrypt_eq, hr]; exact he
  · rw [mainDecrypt_of_ok C ct pw _ hd]; exact hx

theorem roundtrip_working_domain_witness :
    encodeRune (len (dotA 127) - 1) = [byte ((dotA 127).length - 1)] ∧
    (byte ((dotA 127).length - 1)).val = (dotA 127).length - 1 ∧
    frame (dotA 127) [] = .ok (byte ((dotA 127).length - 1) :: (dotA 127 ++ [])) ∧
    extract (byte ((dotA 127).length - 1) :: (dotA 127 ++ [])) = .ok (dotA 127, []) ∧
    ∃ c, mainEncrypt demoCrypto (demoSalt ++ demoNonce ++ []) (dotA 127) [] hunter2 = .ok c ∧
      decrypt demoCrypto c hunter2 = .ok (byte ((dotA 127).length - 1) :: (dotA 127 ++ [])) ∧
      mainDecrypt demoCrypto c hunter2 = .ok (dotA 127, []) :=
  roundtrip_working_domain demoCrypto 12 demoCrypto_setup demoCrypto_opens
    demoSalt demoNonce [] (dotA 127) [] hunter2 (by decide) (by decide)
    (by have := dotA_length 127; omega) (by have := dotA_length 127; omega)

end Encrypt
